import Mathlib

/-!
Verification of the lattice-of-torsion-classes module (`tors_lattice.py`).

The module works over a finite lattice supplied by an external lattice
library (the "Lattice Primitives Adapter" of the design document): order
comparison, join, meet, covers, join-irreducibles and canonical join
representations.  We embed the adapter over an arbitrary bounded lattice
`α` together with a listing `elems` of its elements:

* `a ⊔ b` / `a ⊓ b` model the adapter's binary join / meet, and joins and
  meets of lists are left folds of the binary operations starting from
  bottom / top, exactly as the adapter computes them (the empty join is
  the bottom element, the empty meet the top element).
* `elems` is the adapter's element listing (`elements()`); in theorems
  about a genuine finite lattice it is assumed complete (every element
  occurs) and duplicate-free.
* `upperCovers` / `lowerCovers` are the Hasse covers, computed from the
  order; `joinIrreducibles` are the elements with exactly one lower
  cover.
* `hasseKappa` and `canonicalJoinands` are modelled from the spec (see
  their doc comments), since the adapter code itself is external.

All other definitions are direct translations of the Python code.
Exceptions raised by the Python code are modelled with `Except Err`;
the "absent value" (`None`) outcome of the kappa maps is `Option.none`.
-/

/-- Error outcomes of the Python code: `notAnInterval`,
`notACoveringRelation` and `notJoinIrreducible` are the `ValueError`s
raised by `bricks` / `label` / `has_tau_rigid_summand`; `keyError` is the
`KeyError` the adapter raises when an absent (`None`) kappa value is
passed to an order comparison; `indexError` is the `IndexError` of
`list(s)[0]` on an empty set. -/
inductive Err where
  | notAnInterval
  | notACoveringRelation
  | notJoinIrreducible
  | keyError
  | indexError
deriving DecidableEq

instance {ε β : Type} [DecidableEq ε] [DecidableEq β] : DecidableEq (Except ε β) := fun a b =>
  match a, b with
  | .error e, .error f =>
      if h : e = f then isTrue (congrArg Except.error h)
      else isFalse (fun hc => h (by injection hc))
  | .ok x, .ok y =>
      if h : x = y then isTrue (congrArg Except.ok h)
      else isFalse (fun hc => h (by injection hc))
  | .error _, .ok _ => isFalse (fun hc => nomatch hc)
  | .ok _, .error _ => isFalse (fun hc => nomatch hc)

/-- The sole element of a one-element list, `none` otherwise. -/
def pickSingleton {β : Type} : List β → Option β
  | [b] => some b
  | _ => none

/-- Apply an `Option`-valued function to every member of a list; `none` as
soon as one application yields `none` (a `None` entering a later adapter
call raises there, which the caller turns into an absent result). -/
def mapOption {β γ : Type} (f : β → Option γ) : List β → Option (List γ)
  | [] => some []
  | b :: l =>
    match f b, mapOption f l with
    | some c, some r => some (c :: r)
    | _, _ => none

namespace TorsLat

variable (α : Type) [DecidableEq α] [Lattice α] [BoundedOrder α]
variable [DecidableRel ((· ≤ ·) : α → α → Prop)]
variable (elems : List α)

/-- Adapter: the upper covers of `x` (the Hasse arrows out of `x`). -/
def upperCovers (x : α) : List α :=
  elems.filter (fun y => decide (x ≤ y ∧ x ≠ y ∧ ∀ z ∈ elems, x ≤ z → z ≤ y → z = x ∨ z = y))

/-- Adapter: the lower covers of `x` (the Hasse arrows into `x`). -/
def lowerCovers (x : α) : List α :=
  elems.filter (fun y => decide (y ≤ x ∧ y ≠ x ∧ ∀ z ∈ elems, y ≤ z → z ≤ x → z = y ∨ z = x))

/-- Adapter: join-irreducible elements, i.e. elements with exactly one
lower cover in the Hasse diagram. -/
def joinIrreducibles : List α :=
  elems.filter (fun j => decide ((lowerCovers α elems j).length = 1))

/-- Adapter: the join of a list of elements, a fold of binary joins
starting from the bottom element (so the empty join is bottom). -/
def joinList (S : List α) : α := S.foldl (· ⊔ ·) ⊥

/-- Adapter: the meet of a list of elements, a fold of binary meets
starting from the top element (so the empty meet is top). -/
def meetList (S : List α) : α := S.foldl (· ⊓ ·) ⊤

/-- The maximal elements of a listed subset. -/
def maximalsIn (s : List α) : List α :=
  s.filter (fun x => decide (∀ y ∈ s, x ≤ y → x = y))

/-- The minimal elements of a listed subset. -/
def minimalsIn (s : List α) : List α :=
  s.filter (fun x => decide (∀ y ∈ s, y ≤ x → y = x))

/-- The candidate set of the kappa map for a join-irreducible `j` with
lower cover `m`: elements above `m` and not above `j`. -/
def kapCand (j m : α) : List α :=
  elems.filter (fun y => decide (m ≤ y ∧ ¬ j ≤ y))

/-- Modelled from the spec: the adapter's `hasse.kappa` used by `_kappa`
(the adapter code is external to the repository).  For a join-irreducible
`j` with unique lower cover `m`, `kappa(j)` is the unique maximal element
`x` with `m ≤ x` and `j ≰ x` when it exists, and `None` otherwise. -/
def hasseKappa (j : α) : Option α :=
  match pickSingleton (lowerCovers α elems j) with
  | some m => pickSingleton (maximalsIn α (kapCand α elems j m))
  | none => none

/-- The candidate set of the canonical joinand of `x` at a lower cover
`a`: elements below `x` and not below `a`. -/
def cjCand (x a : α) : List α :=
  elems.filter (fun v => decide (v ≤ x ∧ ¬ v ≤ a))

/-- Modelled from the spec: the adapter's `canonical_joinands` (external
to the repository) — the canonical join representation of `x`, a minimal
join-decomposition into join-irreducibles, or `None` if it does not
exist.  For each lower cover `a` of `x` the set of elements below `x`
but not below `a` must have a unique minimal element, the joinand at
`a`; otherwise there is no canonical join representation. -/
def canonicalJoinands (x : α) : Option (List α) :=
  mapOption (fun a => pickSingleton (minimalsIn α (cjCand α elems x a)))
    (lowerCovers α elems x)

/-- Python `_extended_kappa`: kappa of the canonical joinands, then their meet.
`None` when `x` has no canonical join representation or kappa of some
joinand does not exist (the meet of a list containing `None` raises in
the Python code and the exception is swallowed into `None`). -/
def extendedKappa (x : α) : Option α :=
  match canonicalJoinands α elems x with
  | none => none
  | some CJR =>
    match mapOption (hasseKappa α elems) CJR with
    | none => none
    | some ks => some (meetList α ks)

/-- Python `zero`: the smallest torsion class. -/
def zero : α := ⊥

/-- Python `whole`: the largest torsion class. -/
def whole : α := ⊤

/-- Python `simples`: the upper covers of the bottom element. -/
def simples : List α := upperCovers α elems (zero α)

/-- Python `all_bricks`: all bricks, represented by join-irreducibles. -/
def allBricks : List α := joinIrreducibles α elems

/-- The method `kappa`: the extended kappa map. -/
def kappa (T : α) : Option α := extendedKappa α elems T

/-- Python `bricks_in_tors`: bricks contained in the torsion class `T`. -/
def bricksInTors (T : α) : List α :=
  (allBricks α elems).filter (fun j => decide (j ≤ T))

/-- The comparison `is_gequal(kappa(j), T)` on an optional kappa value;
`false` only arises for a present value, the `none` case is the one the
adapter turns into a `KeyError` (see `bricksInTorf`). -/
def optGe (o : Option α) (T : α) : Bool :=
  match o with
  | some k => decide (T ≤ k)
  | none => false

/-- The brick list underlying `bricks_in_torf` (bricks whose kappa is
above `T`). -/
def torfSet (T : α) : List α :=
  (allBricks α elems).filter (fun j => optGe α (kappa α elems j) T)

/-- Python `bricks_in_torf`: bricks contained in the torsion-free class of `T`.
The comprehension compares `kappa(j)` with `T` for every brick `j`, so it
raises a `KeyError` if any brick has an absent kappa value. -/
def bricksInTorf (T : α) : Except Err (List α) :=
  if (allBricks α elems).all (fun j => (kappa α elems j).isSome)
  then .ok (torfSet α elems T) else .error .keyError

/-- Python `bricks`: the brick set of the heart of the interval `(U, T)`, the
intersection of `bricks_in_tors(T)` and `bricks_in_torf(U)`;
`NotAnInterval` when the check is enabled and `U ≤ T` fails. -/
def bricks (U T : α) (check : Bool) : Except Err (List α) :=
  if check ∧ ¬ U ≤ T then .error .notAnInterval
  else
    match bricksInTorf α elems U with
    | .error e => .error e
    | .ok bf => .ok ((bricksInTors α elems T).filter (fun j => decide (j ∈ bf)))

/-- Python `label`: the brick label of a Hasse arrow.  Calls `bricks` with its
default (enabled) check; with the check enabled, more than one brick in
the heart raises `NotACoveringRelation`; taking the first element of the
listed set raises an `IndexError` when the heart has no brick at all. -/
def label (U T : α) (check : Bool) : Except Err α :=
  match bricks α elems U T true with
  | .error e => .error e
  | .ok bs =>
    if check ∧ 1 < bs.length then .error .notACoveringRelation
    else
      match bs with
      | [] => .error .indexError
      | b :: _ => .ok b

/-- Python `plus`: the join of the upper covers of `U` (or `U` for the top). -/
def plus (U : α) : α :=
  if U = whole α then U else joinList α (upperCovers α elems U)

/-- Python `minus`: the meet of the lower covers of `T` (or `T` for the bottom). -/
def minus (T : α) : α :=
  if T = zero α then T else meetList α (lowerCovers α elems T)

/-- Python `is_wide_itv`: whether `(U, T)` is a wide interval. -/
def isWideItv (U T : α) (check : Bool) : Except Err Bool :=
  if check ∧ ¬ U ≤ T then .error .notAnInterval
  else if U = T then .ok true
  else .ok (decide (T = joinList α ((upperCovers α elems U).filter (fun x => decide (x ≤ T)))))

/-- Python `is_ice_itv`: whether `(U, T)` is an ICE interval. -/
def isIceItv (U T : α) (check : Bool) : Except Err Bool :=
  if check ∧ ¬ U ≤ T then .error .notAnInterval
  else .ok (decide (T ≤ plus α elems U))

/-- Python `is_ike_itv`: whether `(U, T)` is an IKE interval. -/
def isIkeItv (U T : α) (check : Bool) : Except Err Bool :=
  if check ∧ ¬ U ≤ T then .error .notAnInterval
  else .ok (decide (minus α elems T ≤ U))

/-- Python `wide_lequal`: compare the wide subcategories of two torsion classes.
The conjunction short-circuits, so the kappa values are only compared
when `U ≤ T`; comparing an absent kappa value raises a `KeyError`. -/
def wideLequal (U T : α) : Except Err Bool :=
  if ¬ U ≤ T then .ok false
  else
    match kappa α elems U, kappa α elems T with
    | some kU, some kT => .ok (decide (kT ≤ kU))
    | _, _ => .error .keyError

/-- Python `indec_tau_rigid`: same as `all_bricks`. -/
def indecTauRigid : List α := allBricks α elems

/-- The set returned by `has_tau_rigid_summand` once its check passed:
torsion classes between `M` and `plus M`. -/
def tauRigidSet (M : α) : List α :=
  elems.filter (fun T => decide (M ≤ T ∧ T ≤ plus α elems M))

/-- Python `has_tau_rigid_summand`: support tau-tilting pairs with summand `M`;
`NotJoinIrreducible` when the check is enabled and `M` is not. -/
def hasTauRigidSummand (M : α) (check : Bool) : Except Err (List α) :=
  if check ∧ M ∉ indecTauRigid α elems then .error .notJoinIrreducible
  else .ok (tauRigidSet α elems M)

/-- Python `projectives`: the indecomposable Ext-projectives of `T` (bricks `M`
with `T` in `has_tau_rigid_summand(M, check=False)`). -/
def projectives (T : α) : List α :=
  (indecTauRigid α elems).filter (fun M => decide (T ∈ tauRigidSet α elems M))

/-- Python `number_of_projs`: an element argument `T` stands for the interval
`(zero, T)`; an interval argument is used as given; then the number of
projectives of `T` not below `U`. -/
def numberOfProjs (arg : α ⊕ α × α) : Nat :=
  let p : α × α :=
    match arg with
    | .inr q => q
    | .inl T => (zero α, T)
  ((projectives α elems p.2).filter (fun M => decide (¬ M ≤ p.1))).length

/-- Meet-semidistributivity. -/
abbrev SDmeet : Prop := ∀ a b c : α, a ⊓ b = a ⊓ c → a ⊓ (b ⊔ c) = a ⊓ b

/-- Join-semidistributivity. -/
abbrev SDjoin : Prop := ∀ a b c : α, a ⊔ b = a ⊔ c → a ⊔ (b ⊓ c) = a ⊔ b

/-- The kappa property of claim C1: `k` lies over the lower cover `m` of
`j`, avoids `j`, is maximal with this property, and is the only maximal
element with this property. -/
abbrev kappaMaxSpec (j m k : α) : Prop :=
  (m ≤ k ∧ ¬ j ≤ k)
  ∧ (∀ x, m ≤ x → ¬ j ≤ x → k ≤ x → x = k)
  ∧ (∀ x, m ≤ x → ¬ j ≤ x → (∀ y, m ≤ y → ¬ j ≤ y → x ≤ y → y = x) → x = k)

/-- The elements of the four-element chain lattice `0 < a < b < 1`,
realized as `Fin 4` with `0 = 0`, `a = 1`, `b = 2`, `1 = 3`. -/
def chainElems : List (Fin 4) := [0, 1, 2, 3]

end TorsLat

/-! ### Generic list lemmas -/

lemma pickSingleton_eq_some {β : Type} {l : List β} {b : β} :
    pickSingleton l = some b ↔ l = [b] := by
  cases l with
  | nil => simp [pickSingleton]
  | cons a t =>
    cases t with
    | nil => simp [pickSingleton]
    | cons c t2 => simp [pickSingleton]

lemma mapOption_eq_some_of_forall {β γ : Type} {f : β → Option γ} {l : List β}
    (h : ∀ a ∈ l, (f a).isSome) : ∃ r, mapOption f l = some r := by
  induction l with
  | nil => exact ⟨[], rfl⟩
  | cons a t ih =>
    obtain ⟨c, hc⟩ := Option.isSome_iff_exists.mp (h a (List.mem_cons_self a t))
    obtain ⟨r, hr⟩ := ih (fun b hb => h b (List.mem_cons_of_mem a hb))
    exact ⟨c :: r, by simp [mapOption, hc, hr]⟩

lemma mapOption_eq_none_of_mem {β γ : Type} {f : β → Option γ} {l : List β} {a : β}
    (ha : a ∈ l) (hfa : f a = none) : mapOption f l = none := by
  induction l with
  | nil => cases ha
  | cons b t ih =>
    rcases List.mem_cons.mp ha with rfl | hmem
    · simp [mapOption, hfa]
    · cases hfb : f b <;> simp [mapOption, hfb, ih hmem]

lemma mem_of_mapOption {β γ : Type} {f : β → Option γ} {l : List β} {r : List γ}
    (h : mapOption f l = some r) {b : γ} (hb : b ∈ r) : ∃ a ∈ l, f a = some b := by
  induction l generalizing r with
  | nil =>
    simp only [mapOption, Option.some.injEq] at h
    subst h; cases hb
  | cons a t ih =>
    cases hfa : f a with
    | none => simp [mapOption, hfa] at h
    | some c =>
      cases hmt : mapOption f t with
      | none => simp [mapOption, hfa, hmt] at h
      | some r2 =>
        simp only [mapOption, hfa, hmt, Option.some.injEq] at h
        subst h
        rcases List.mem_cons.mp hb with rfl | hb2
        · exact ⟨a, List.mem_cons_self a t, hfa⟩
        · obtain ⟨a2, ha2, hfa2⟩ := ih hmt hb2
          exact ⟨a2, List.mem_cons_of_mem a ha2, hfa2⟩

lemma filter_eq_singleton {β : Type} {l : List β} {p : β → Bool} {v : β}
    (hnd : l.Nodup) (hv : v ∈ l) (hpv : p v = true)
    (huniq : ∀ w ∈ l, p w = true → w = v) : l.filter p = [v] := by
  induction l with
  | nil => cases hv
  | cons a t ih =>
    have hnd2 := List.nodup_cons.mp hnd
    rcases List.mem_cons.mp hv with rfl | hvt
    · rw [List.filter_cons_of_pos hpv]
      have : t.filter p = [] := List.filter_eq_nil_iff.mpr (fun w hw hpw => by
        have := huniq w (List.mem_cons_of_mem _ hw) hpw
        exact hnd2.1 (this ▸ hw))
      rw [this]
    · have hpa : ¬ p a = true := fun hpa => by
        have := huniq a (List.mem_cons_self a t) hpa
        exact hnd2.1 (this ▸ hvt)
      rw [List.filter_cons_of_neg (by simpa using hpa)]
      exact ih hnd2.2 hvt (fun w hw hpw => huniq w (List.mem_cons_of_mem _ hw) hpw)

/-! ### Maximal and minimal elements of a listed subset -/

lemma exists_maximal_mem {β : Type} [PartialOrder β] (l : List β) (h : l ≠ []) :
    ∃ m ∈ l, ∀ x ∈ l, m ≤ x → x = m := by
  induction l with
  | nil => exact absurd rfl h
  | cons a t ih =>
    cases t with
    | nil =>
      refine ⟨a, List.mem_cons_self a [], ?_⟩
      intro x hx hax
      rcases List.mem_cons.mp hx with rfl | hx2
      · rfl
      · cases hx2
    | cons b t2 =>
      obtain ⟨m, hm, hmax⟩ := ih (by simp)
      by_cases hma : m ≤ a
      · refine ⟨a, List.mem_cons_self a _, ?_⟩
        intro x hx hax
        rcases List.mem_cons.mp hx with rfl | hx2
        · rfl
        · have := hmax x hx2 (le_trans hma hax)
          subst this
          exact le_antisymm hma hax
      · refine ⟨m, List.mem_cons_of_mem a hm, ?_⟩
        intro x hx hmx
        rcases List.mem_cons.mp hx with rfl | hx2
        · exact absurd hmx hma
        · exact hmax x hx2 hmx

lemma exists_minimal_mem {β : Type} [PartialOrder β] (l : List β) (h : l ≠ []) :
    ∃ m ∈ l, ∀ x ∈ l, x ≤ m → x = m := by
  obtain ⟨m, hm, hmax⟩ := exists_maximal_mem (β := βᵒᵈ) l h
  exact ⟨m, hm, hmax⟩

namespace TorsLat

variable (α : Type) [DecidableEq α] [Lattice α] [BoundedOrder α]
variable [DecidableRel ((· ≤ ·) : α → α → Prop)]
variable (elems : List α)

/-! ### Fold lemmas for listed joins and meets -/

lemma foldl_sup_init_le (l : List α) : ∀ acc : α, acc ≤ l.foldl (· ⊔ ·) acc := by
  induction l with
  | nil => intro acc; exact le_refl acc
  | cons a t ih => intro acc; exact le_trans le_sup_left (ih (acc ⊔ a))

lemma le_foldl_sup {a : α} {l : List α} (h : a ∈ l) : ∀ acc : α, a ≤ l.foldl (· ⊔ ·) acc := by
  induction l with
  | nil => cases h
  | cons b t ih =>
    intro acc
    rcases List.mem_cons.mp h with rfl | hmem
    · exact le_trans le_sup_right (foldl_sup_init_le α t (acc ⊔ a))
    · exact ih hmem (acc ⊔ b)

lemma foldl_sup_le {b : α} (l : List α) :
    ∀ acc : α, acc ≤ b → (∀ a ∈ l, a ≤ b) → l.foldl (· ⊔ ·) acc ≤ b := by
  induction l with
  | nil => intro acc hacc _; exact hacc
  | cons a t ih =>
    intro acc hacc h
    exact ih (acc ⊔ a) (sup_le hacc (h a (List.mem_cons_self a t)))
      (fun x hx => h x (List.mem_cons_of_mem a hx))

lemma le_joinList {a : α} {l : List α} (h : a ∈ l) : a ≤ joinList α l :=
  le_foldl_sup α h ⊥

lemma joinList_le {b : α} {l : List α} (h : ∀ a ∈ l, a ≤ b) : joinList α l ≤ b :=
  foldl_sup_le α l ⊥ bot_le h

lemma foldl_inf_init_le (l : List α) : ∀ acc : α, l.foldl (· ⊓ ·) acc ≤ acc := by
  induction l with
  | nil => intro acc; exact le_refl acc
  | cons a t ih => intro acc; exact le_trans (ih (acc ⊓ a)) inf_le_left

lemma foldl_inf_le {a : α} {l : List α} (h : a ∈ l) : ∀ acc : α, l.foldl (· ⊓ ·) acc ≤ a := by
  induction l with
  | nil => cases h
  | cons b t ih =>
    intro acc
    rcases List.mem_cons.mp h with rfl | hmem
    · exact le_trans (foldl_inf_init_le α t (acc ⊓ a)) inf_le_right
    · exact ih hmem (acc ⊓ b)

lemma le_foldl_inf {b : α} (l : List α) :
    ∀ acc : α, b ≤ acc → (∀ a ∈ l, b ≤ a) → b ≤ l.foldl (· ⊓ ·) acc := by
  induction l with
  | nil => intro acc hacc _; exact hacc
  | cons a t ih =>
    intro acc hacc h
    exact ih (acc ⊓ a) (le_inf hacc (h a (List.mem_cons_self a t)))
      (fun x hx => h x (List.mem_cons_of_mem a hx))

lemma meetList_le {a : α} {l : List α} (h : a ∈ l) : meetList α l ≤ a :=
  foldl_inf_le α h ⊤

lemma le_meetList {b : α} {l : List α} (h : ∀ a ∈ l, b ≤ a) : b ≤ meetList α l :=
  le_foldl_inf α l ⊤ le_top h

lemma sdmeet_foldl (hm : SDmeet α) {p q : α} (l : List α) :
    ∀ acc : α, p ⊓ acc = q → (∀ a ∈ l, p ⊓ a = q) → p ⊓ l.foldl (· ⊔ ·) acc = q := by
  induction l with
  | nil => intro acc hacc _; exact hacc
  | cons a t ih =>
    intro acc hacc h
    have ha : p ⊓ a = q := h a (List.mem_cons_self a t)
    have : p ⊓ (acc ⊔ a) = q := by
      rw [hm p acc a (by rw [hacc, ha])]; exact hacc
    exact ih (acc ⊔ a) this (fun x hx => h x (List.mem_cons_of_mem a hx))

lemma sdmeet_joinList (hm : SDmeet α) {p q : α} {l : List α} (hne : l ≠ [])
    (h : ∀ a ∈ l, p ⊓ a = q) : p ⊓ joinList α l = q := by
  cases l with
  | nil => exact absurd rfl hne
  | cons c t =>
    show p ⊓ (c :: t).foldl (· ⊔ ·) ⊥ = q
    rw [List.foldl_cons, bot_sup_eq]
    exact sdmeet_foldl α hm t c (h c (List.mem_cons_self c t))
      (fun x hx => h x (List.mem_cons_of_mem c hx))

/-! ### Cover lemmas -/

lemma mem_upperCovers {x y : α} :
    y ∈ upperCovers α elems x ↔
      y ∈ elems ∧ x ≤ y ∧ x ≠ y ∧ ∀ z ∈ elems, x ≤ z → z ≤ y → z = x ∨ z = y := by
  simp [upperCovers, List.mem_filter]

lemma mem_lowerCovers {x y : α} :
    y ∈ lowerCovers α elems x ↔
      y ∈ elems ∧ y ≤ x ∧ y ≠ x ∧ ∀ z ∈ elems, y ≤ z → z ≤ x → z = y ∨ z = x := by
  simp [lowerCovers, List.mem_filter]

lemma upperCover_lt {x y : α} (h : y ∈ upperCovers α elems x) : x < y :=
  lt_of_le_of_ne ((mem_upperCovers α elems).mp h).2.1 ((mem_upperCovers α elems).mp h).2.2.1

lemma lowerCover_lt {x y : α} (h : y ∈ lowerCovers α elems x) : y < x :=
  lt_of_le_of_ne ((mem_lowerCovers α elems).mp h).2.1 ((mem_lowerCovers α elems).mp h).2.2.1

lemma exists_lowerCover_ge (henum : ∀ a : α, a ∈ elems) {v T : α} (h : v < T) :
    ∃ y, y ∈ lowerCovers α elems T ∧ v ≤ y := by
  set S : List α := elems.filter (fun z => decide (v ≤ z ∧ z ≤ T ∧ z ≠ T)) with hS
  have hvS : v ∈ S := by
    rw [hS, List.mem_filter]
    exact ⟨henum v, by simp [le_refl, h.le, h.ne]⟩
  obtain ⟨m, hmS, hmax⟩ := exists_maximal_mem S (List.ne_nil_of_mem hvS)
  have hm := List.mem_filter.mp hmS
  have hmp : v ≤ m ∧ m ≤ T ∧ m ≠ T := by simpa using hm.2
  refine ⟨m, ?_, hmp.1⟩
  rw [mem_lowerCovers]
  refine ⟨hm.1, hmp.2.1, hmp.2.2, ?_⟩
  intro z hz hmz hzT
  by_cases hzeq : z = T
  · exact Or.inr hzeq
  · have hzS : z ∈ S := by
      rw [hS, List.mem_filter]
      exact ⟨hz, by simp [le_trans hmp.1 hmz, hzT, hzeq]⟩
    exact Or.inl (hmax z hzS hmz)

lemma exists_upperCover_le (henum : ∀ a : α, a ∈ elems) {U w : α} (h : U < w) :
    ∃ x, x ∈ upperCovers α elems U ∧ x ≤ w := by
  set S : List α := elems.filter (fun z => decide (U ≤ z ∧ z ≤ w ∧ z ≠ U)) with hS
  have hwS : w ∈ S := by
    rw [hS, List.mem_filter]
    exact ⟨henum w, by simp [le_refl, h.le, (Ne.symm h.ne)]⟩
  obtain ⟨m, hmS, hmin⟩ := exists_minimal_mem S (List.ne_nil_of_mem hwS)
  have hm := List.mem_filter.mp hmS
  have hmp : U ≤ m ∧ m ≤ w ∧ m ≠ U := by simpa using hm.2
  refine ⟨m, ?_, hmp.2.1⟩
  rw [mem_upperCovers]
  refine ⟨hm.1, hmp.1, fun he => hmp.2.2 he.symm, ?_⟩
  intro z hz hUz hzm
  by_cases hzeq : z = U
  · exact Or.inl hzeq
  · have hzS : z ∈ S := by
      rw [hS, List.mem_filter]
      exact ⟨hz, by simp [hUz, le_trans hzm hmp.2.1, hzeq]⟩
    exact Or.inr (hmin z hzS hzm)

lemma upperCovers_inf (henum : ∀ a : α, a ∈ elems) {U x y : α}
    (hx : x ∈ upperCovers α elems U) (hy : y ∈ upperCovers α elems U) (hxy : x ≠ y) :
    x ⊓ y = U := by
  have hx2 := (mem_upperCovers α elems).mp hx
  have hy2 := (mem_upperCovers α elems).mp hy
  have hUxy : U ≤ x ⊓ y := le_inf hx2.2.1 hy2.2.1
  rcases hx2.2.2.2 (x ⊓ y) (henum _) hUxy inf_le_left with he | he
  · exact he
  · exfalso
    have hxley : x ≤ y := he ▸ inf_le_right
    rcases hy2.2.2.2 x (henum x) hx2.2.1 hxley with hxu | hxy2
    · exact hx2.2.2.1 hxu.symm
    · exact hxy hxy2

/-- Two distinct lower covers of `v` join to `v`. -/
lemma lowerCovers_sup (henum : ∀ a : α, a ∈ elems) {v c1 c2 : α}
    (h1 : c1 ∈ lowerCovers α elems v) (h2 : c2 ∈ lowerCovers α elems v) (h12 : c1 ≠ c2) :
    c1 ⊔ c2 = v := by
  have hc1 := (mem_lowerCovers α elems).mp h1
  have hc2 := (mem_lowerCovers α elems).mp h2
  rcases hc1.2.2.2 (c1 ⊔ c2) (henum _) le_sup_left (sup_le hc1.2.1 hc2.2.1) with he | he
  · exfalso
    have hc2c1 : c2 ≤ c1 := he ▸ le_sup_right
    rcases hc2.2.2.2 c1 (henum c1) hc2c1 hc1.2.1 with h' | h'
    · exact h12 h'
    · exact hc1.2.2.1 h'
  · exact he

/-- A lower cover `a` of `x` joins with any element of the canonical
joinand candidate set to `x`. -/
lemma lowerCover_sup (henum : ∀ a : α, a ∈ elems) {x a u : α}
    (ha : a ∈ lowerCovers α elems x) (hu : u ≤ x) (hua : ¬ u ≤ a) : a ⊔ u = x := by
  have ha2 := (mem_lowerCovers α elems).mp ha
  rcases ha2.2.2.2 (a ⊔ u) (henum _) le_sup_left (sup_le ha2.2.1 hu) with he | he
  · exact absurd (he ▸ le_sup_right) hua
  · exact he

/-- The unique lower cover `m` of `j` is the meet of `j` with any element
of the kappa candidate set. -/
lemma lowerCover_inf (henum : ∀ a : α, a ∈ elems) {j m u : α}
    (hm : m ∈ lowerCovers α elems j) (hmu : m ≤ u) (hju : ¬ j ≤ u) : j ⊓ u = m := by
  have hm2 := (mem_lowerCovers α elems).mp hm
  rcases hm2.2.2.2 (j ⊓ u) (henum _) (le_inf hm2.2.1 hmu) inf_le_left with he | he
  · exact he
  · exact absurd (he ▸ inf_le_right) hju

/-! ### Membership in the kappa candidate sets -/

lemma mem_maximalsIn {s : List α} {x : α} :
    x ∈ maximalsIn α s ↔ x ∈ s ∧ ∀ y ∈ s, x ≤ y → x = y := by
  simp [maximalsIn, List.mem_filter]

lemma mem_minimalsIn {s : List α} {x : α} :
    x ∈ minimalsIn α s ↔ x ∈ s ∧ ∀ y ∈ s, y ≤ x → y = x := by
  simp [minimalsIn, List.mem_filter]

lemma mem_kapCand {j m y : α} :
    y ∈ kapCand α elems j m ↔ y ∈ elems ∧ m ≤ y ∧ ¬ j ≤ y := by
  simp [kapCand, List.mem_filter]

lemma mem_cjCand {x a v : α} :
    v ∈ cjCand α elems x a ↔ v ∈ elems ∧ v ≤ x ∧ ¬ v ≤ a := by
  simp [cjCand, List.mem_filter]

/-! ### Existence of the kappa data in a semidistributive lattice -/

/-- In a join-semidistributive lattice the canonical joinand candidate
set at a lower cover has a unique minimal element. -/
lemma minimals_cjCand_singleton (henum : ∀ a : α, a ∈ elems) (hnd : elems.Nodup)
    (hsdj : SDjoin α) {x a : α} (ha : a ∈ lowerCovers α elems x) :
    ∃ v, minimalsIn α (cjCand α elems x a) = [v] := by
  have hax : a < x := lowerCover_lt α elems ha
  have hxc : x ∈ cjCand α elems x a :=
    (mem_cjCand α elems).mpr ⟨henum x, le_refl x, hax.not_le⟩
  obtain ⟨u, huc, humin⟩ := exists_minimal_mem _ (List.ne_nil_of_mem hxc)
  have hu2 := (mem_cjCand α elems).mp huc
  refine ⟨u, ?_⟩
  have huniq : ∀ w ∈ cjCand α elems x a,
      (∀ y ∈ cjCand α elems x a, y ≤ w → y = w) → w = u := by
    intro w hwc hwmin
    have hw2 := (mem_cjCand α elems).mp hwc
    have hau : a ⊔ u = x := lowerCover_sup α elems henum ha hu2.2.1 hu2.2.2
    have haw : a ⊔ w = x := lowerCover_sup α elems henum ha hw2.2.1 hw2.2.2
    have hsd : a ⊔ (u ⊓ w) = x := by
      rw [hsdj a u w (by rw [hau, haw])]; exact hau
    have huwa : ¬ u ⊓ w ≤ a := by
      intro hle
      rw [sup_eq_left.mpr hle] at hsd
      exact hax.ne hsd
    have huwc : u ⊓ w ∈ cjCand α elems x a :=
      (mem_cjCand α elems).mpr ⟨henum _, le_trans inf_le_left hu2.2.1, huwa⟩
    have h1 : u ⊓ w = u := humin _ huwc inf_le_left
    have h2 : u ⊓ w = w := hwmin _ huwc inf_le_right
    rw [← h1, h2]
  apply filter_eq_singleton (List.Nodup.filter _ hnd) huc
  · simpa using humin
  · intro w hw hpw
    exact huniq w hw (by simpa using hpw)

/-- In a meet-semidistributive lattice the kappa candidate set of a
join-irreducible element has a unique maximal element. -/
lemma maximals_kapCand_singleton (henum : ∀ a : α, a ∈ elems) (hnd : elems.Nodup)
    (hsdm : SDmeet α) {j m : α} (hm : m ∈ lowerCovers α elems j) :
    ∃ k, maximalsIn α (kapCand α elems j m) = [k] := by
  have hmj : m < j := lowerCover_lt α elems hm
  have hmc : m ∈ kapCand α elems j m :=
    (mem_kapCand α elems).mpr ⟨henum m, le_refl m, fun hjm => hmj.ne (le_antisymm hmj.le hjm)⟩
  obtain ⟨u, huc, humax⟩ := exists_maximal_mem _ (List.ne_nil_of_mem hmc)
  have hu2 := (mem_kapCand α elems).mp huc
  refine ⟨u, ?_⟩
  have huniq : ∀ w ∈ kapCand α elems j m,
      (∀ y ∈ kapCand α elems j m, w ≤ y → w = y) → w = u := by
    intro w hwc hwmax
    have hw2 := (mem_kapCand α elems).mp hwc
    have hju : j ⊓ u = m := lowerCover_inf α elems henum hm hu2.2.1 hu2.2.2
    have hjw : j ⊓ w = m := lowerCover_inf α elems henum hm hw2.2.1 hw2.2.2
    have hsd : j ⊓ (u ⊔ w) = m := by
      rw [hsdm j u w (by rw [hju, hjw])]; exact hju
    have hjuw : ¬ j ≤ u ⊔ w := by
      intro hle
      rw [inf_eq_left.mpr hle] at hsd
      exact hmj.ne hsd.symm
    have huwc : u ⊔ w ∈ kapCand α elems j m :=
      (mem_kapCand α elems).mpr ⟨henum _, le_trans hu2.2.1 le_sup_left, hjuw⟩
    have h1 : u ⊔ w = u := humax _ huwc le_sup_left
    have h2 : w = u ⊔ w := hwmax _ huwc le_sup_right
    exact h2.trans h1
  apply filter_eq_singleton (List.Nodup.filter _ hnd) huc
  · have : ∀ y ∈ kapCand α elems j m, u ≤ y → u = y :=
      fun y hy hle => (humax y hy hle).symm
    simpa using this
  · intro w hw hpw
    exact huniq w hw (by simpa using hpw)

/-- A canonical joinand is join-irreducible: it has exactly one lower
cover. -/
lemma joinand_lowerCovers (henum : ∀ a : α, a ∈ elems) (hnd : elems.Nodup)
    {x a v : α} (ha : a ∈ lowerCovers α elems x)
    (hv : v ∈ minimalsIn α (cjCand α elems x a)) :
    ∃ c, lowerCovers α elems v = [c] := by
  obtain ⟨hvc, hvmin⟩ := (mem_minimalsIn α).mp hv
  have hv2 := (mem_cjCand α elems).mp hvc
  have hvbot : v ≠ ⊥ := by
    intro he
    exact hv2.2.2 (he ▸ bot_le)
  obtain ⟨c, hc, -⟩ := exists_lowerCover_ge α elems henum
    (lt_of_le_of_ne bot_le (Ne.symm hvbot))
  have hcov_le_a : ∀ w ∈ lowerCovers α elems v, w ≤ a := by
    intro w hw
    have hw2 := (mem_lowerCovers α elems).mp hw
    by_contra hwa
    have hwc : w ∈ cjCand α elems x a :=
      (mem_cjCand α elems).mpr ⟨hw2.1, le_trans hw2.2.1 hv2.2.1, hwa⟩
    exact hw2.2.2.1 (hvmin w hwc hw2.2.1)
  have huniq : ∀ w ∈ lowerCovers α elems v, w = c := by
    intro w hw
    by_contra hwc
    have hsup : w ⊔ c = v := lowerCovers_sup α elems henum hw hc hwc
    have : v ≤ a := hsup ▸ sup_le (hcov_le_a w hw) (hcov_le_a c hc)
    exact hv2.2.2 this
  refine ⟨c, ?_⟩
  have hc2 := (mem_lowerCovers α elems).mp hc
  apply filter_eq_singleton hnd hc2.1
  · have := (List.mem_filter.mp hc).2
    exact this
  · intro w hw hpw
    exact huniq w (List.mem_filter.mpr ⟨hw, hpw⟩)

/-- kappa exists for every join-irreducible element of a finite
meet-semidistributive lattice. -/
lemma hasseKappa_isSome_of_cover (henum : ∀ a : α, a ∈ elems) (hnd : elems.Nodup)
    (hsdm : SDmeet α) {j m : α} (hm : lowerCovers α elems j = [m]) :
    ∃ k, hasseKappa α elems j = some k := by
  have hmem : m ∈ lowerCovers α elems j := hm ▸ List.mem_singleton_self m
  obtain ⟨k, hk⟩ := maximals_kapCand_singleton α elems henum hnd hsdm hmem
  exact ⟨k, by simp [hasseKappa, hm, pickSingleton, hk]⟩

/-- The extended kappa map is total on a finite semidistributive
lattice. -/
lemma extendedKappa_total (henum : ∀ a : α, a ∈ elems) (hnd : elems.Nodup)
    (hsdm : SDmeet α) (hsdj : SDjoin α) (x : α) :
    ∃ k, extendedKappa α elems x = some k := by
  have hcj : ∀ a ∈ lowerCovers α elems x,
      ((fun a => pickSingleton (minimalsIn α (cjCand α elems x a))) a).isSome := by
    intro a ha
    obtain ⟨v, hv⟩ := minimals_cjCand_singleton α elems henum hnd hsdj ha
    simp [hv, pickSingleton]
  obtain ⟨CJR, hCJR⟩ := mapOption_eq_some_of_forall hcj
  have hks : ∀ b ∈ CJR, (hasseKappa α elems b).isSome := by
    intro b hb
    obtain ⟨a, ha, hfa⟩ := mem_of_mapOption hCJR hb
    have hbmin : b ∈ minimalsIn α (cjCand α elems x a) := by
      rw [pickSingleton_eq_some.mp hfa]
      exact List.mem_singleton_self b
    obtain ⟨c, hc⟩ := joinand_lowerCovers α elems henum hnd ha hbmin
    obtain ⟨k, hk⟩ := hasseKappa_isSome_of_cover α elems henum hnd hsdm hc
    simp [hk]
  obtain ⟨ks, hksome⟩ := mapOption_eq_some_of_forall hks
  refine ⟨meetList α ks, ?_⟩
  simp [extendedKappa, canonicalJoinands, hCJR, hksome]

end TorsLat

namespace TorsLat

variable (α : Type) [DecidableEq α] [Lattice α] [BoundedOrder α]
variable [DecidableRel ((· ≤ ·) : α → α → Prop)]
variable (elems : List α)

/-! ### Auxiliary facts about the bottom element -/

lemma bot_lowerCovers : lowerCovers α elems (⊥ : α) = [] := by
  apply List.filter_eq_nil_iff.mpr
  intro y hy h
  obtain ⟨h1, h2, -⟩ := of_decide_eq_true h
  exact h2 (le_bot_iff.mp h1)

lemma bot_not_brick : (⊥ : α) ∉ allBricks α elems := by
  intro h
  have h2 := (List.mem_filter.mp h).2
  simp [bot_lowerCovers] at h2

/-! ### Claim theorems -/

/-- Claim C1: for a join-irreducible `j` (unique lower cover `m`),
`kappa(j) = k` exactly when `k` is the unique maximal element `x` with
`m ≤ x` and `j ≰ x`; when no such unique maximal element exists the
result is the absent value `none`, not an error. -/
theorem c1_kappa_unique_maximal (henum : ∀ a : α, a ∈ elems) (hnd : elems.Nodup)
    (j m : α) (hm : lowerCovers α elems j = [m]) :
    (∀ k, hasseKappa α elems j = some k ↔ kappaMaxSpec α j m k)
    ∧ (hasseKappa α elems j = none ↔ ¬ ∃ k, kappaMaxSpec α j m k) := by
  have hiff : ∀ k, maximalsIn α (kapCand α elems j m) = [k] ↔ kappaMaxSpec α j m k := by
    intro k
    constructor
    · intro h
      have hk : k ∈ maximalsIn α (kapCand α elems j m) := h ▸ List.mem_singleton_self k
      obtain ⟨hkc, hkmax⟩ := (mem_maximalsIn α).mp hk
      have hk2 := (mem_kapCand α elems).mp hkc
      refine ⟨⟨hk2.2.1, hk2.2.2⟩, ?_, ?_⟩
      · intro x hmx hjx hkx
        exact (hkmax x ((mem_kapCand α elems).mpr ⟨henum x, hmx, hjx⟩) hkx).symm
      · intro x hmx hjx hxmax
        have hxin : x ∈ maximalsIn α (kapCand α elems j m) := by
          refine (mem_maximalsIn α).mpr ⟨(mem_kapCand α elems).mpr ⟨henum x, hmx, hjx⟩, ?_⟩
          intro y hy hxy
          have hy2 := (mem_kapCand α elems).mp hy
          exact (hxmax y hy2.2.1 hy2.2.2 hxy).symm
        rw [h] at hxin
        exact List.mem_singleton.mp hxin
    · intro hs
      apply filter_eq_singleton (List.Nodup.filter _ hnd)
        ((mem_kapCand α elems).mpr ⟨henum k, hs.1.1, hs.1.2⟩)
      · have : ∀ y ∈ kapCand α elems j m, k ≤ y → k = y := by
          intro y hy hky
          have hy2 := (mem_kapCand α elems).mp hy
          exact (hs.2.1 y hy2.2.1 hy2.2.2 hky).symm
        simpa using this
      · intro w hw hpw
        have hw2 := (mem_kapCand α elems).mp hw
        have hwmax : ∀ y ∈ kapCand α elems j m, w ≤ y → w = y := by simpa using hpw
        refine hs.2.2 w hw2.2.1 hw2.2.2 ?_
        intro y hmy hjy hwy
        exact (hwmax y ((mem_kapCand α elems).mpr ⟨henum y, hmy, hjy⟩) hwy).symm
  have hred : hasseKappa α elems j = pickSingleton (maximalsIn α (kapCand α elems j m)) := by
    simp [hasseKappa, hm, pickSingleton]
  constructor
  · intro k
    rw [hred, pickSingleton_eq_some]
    exact hiff k
  · constructor
    · rintro h ⟨k, hk⟩
      have := (hred ▸ pickSingleton_eq_some.mpr ((hiff k).mpr hk) : hasseKappa α elems j = some k)
      rw [h] at this
      cases this
    · intro h
      cases hK : hasseKappa α elems j with
      | none => rfl
      | some k =>
        exact absurd ⟨k, (hiff k).mp (pickSingleton_eq_some.mp (hred ▸ hK))⟩ h

/-- Claim C1 witness: on the four-element chain, `kappa(a) = 0`. -/
theorem c1_witness : hasseKappa (Fin 4) chainElems 1 = some 0 :=
  ((c1_kappa_unique_maximal (Fin 4) chainElems (by decide) (by decide) 1 0 (by decide)).1 0).mpr
    ⟨by decide, by decide, by decide⟩

/-- Claim C2 counterexample: on the four-element chain the interval
`(a, a)` has an empty heart; `label` with the check enabled fails with an
`IndexError`, not with the `NotACoveringRelation` error the claim
predicts for a brick count different from one. -/
theorem c2_label_counterexample :
    bricks (Fin 4) chainElems 1 1 true = .ok []
    ∧ label (Fin 4) chainElems 1 1 true = .error .indexError
    ∧ label (Fin 4) chainElems 1 1 true ≠ .error .notACoveringRelation := by
  refine ⟨by decide, by decide, by decide⟩

/-- Claim C2 amended: with the check enabled, `label` raises
`NotACoveringRelation` when the heart holds more than one brick and
returns the sole brick when it holds exactly one; when the heart holds
no brick at all it fails with an `IndexError` instead. -/
theorem c2_label_amended (U T : α) (B : List α)
    (hB : bricks α elems U T true = .ok B) :
    (1 < B.length → label α elems U T true = .error .notACoveringRelation)
    ∧ (∀ b, B = [b] → label α elems U T true = .ok b)
    ∧ (B = [] → label α elems U T true = .error .indexError) := by
  refine ⟨?_, ?_, ?_⟩
  · intro hlen
    simp [label, hB, hlen]
  · rintro b rfl
    simp [label, hB]
  · rintro rfl
    simp [label, hB]

/-- Claim C2 amended witness: on the chain, the heart of `(0, a)` is the
single brick `a` and `label` returns it. -/
theorem c2_label_amended_witness : label (Fin 4) chainElems 0 1 true = .ok 1 :=
  (c2_label_amended (Fin 4) chainElems 0 1 [1] (by decide)).2.1 1 rfl

/-- Claim C3 counterexample: on the four-element chain `0 < a < b < 1`
the top element is also join-irreducible, so `allBricks` is `{a, b, 1}`
and not `{a, b}`; moreover `isWideInterval((0, 1))` computes to `False`
(the join of the covers of `0` below the top is `a`, not the top), so
the claimed conjunction fails. -/
theorem c3_chain_counterexample :
    ¬ ((allBricks (Fin 4) chainElems).toFinset = {1, 2}
       ∧ (simples (Fin 4) chainElems).toFinset = {1}
       ∧ label (Fin 4) chainElems 0 1 true = .ok 1
       ∧ label (Fin 4) chainElems 1 2 true = .ok 2
       ∧ bricks (Fin 4) chainElems 0 2 true = .ok [1, 2]
       ∧ isWideItv (Fin 4) chainElems 0 3 true = .ok true) := by
  decide

/-- Claim C3 amended: on the four-element chain, `allBricks = {a, b, 1}`
(the top of a chain has exactly one lower cover, hence is also a brick),
`simples = {a}`, `label((0,a)) = a`, `label((a,b)) = b`,
`bricks((0,b)) = {a, b}`, and `isWideInterval((0,1))` is `False` (the
join of the covers of `0` lying below the top is `a`, not the top). -/
theorem c3_chain_amended :
    (allBricks (Fin 4) chainElems).toFinset = {1, 2, 3}
    ∧ (simples (Fin 4) chainElems).toFinset = {1}
    ∧ label (Fin 4) chainElems 0 1 true = .ok 1
    ∧ label (Fin 4) chainElems 1 2 true = .ok 2
    ∧ bricks (Fin 4) chainElems 0 2 true = .ok [1, 2]
    ∧ isWideItv (Fin 4) chainElems 0 3 true = .ok false := by
  decide

/-- Claim C5: `extendedKappa` first computes the canonical join
representation; absent representation gives the absent value; otherwise
it returns the meet of the kappas of the joinands, and an absent kappa
of any joinand gives the absent value rather than an error. -/
theorem c5_extended_kappa_flow (x : α) :
    (canonicalJoinands α elems x = none → extendedKappa α elems x = none)
    ∧ ∀ l, canonicalJoinands α elems x = some l →
        ((∃ j ∈ l, hasseKappa α elems j = none) → extendedKappa α elems x = none)
        ∧ ∀ ks, mapOption (hasseKappa α elems) l = some ks →
            extendedKappa α elems x = some (meetList α ks) := by
  refine ⟨?_, ?_⟩
  · intro h
    simp [extendedKappa, h]
  · intro l hl
    refine ⟨?_, ?_⟩
    · rintro ⟨j, hj, hjnone⟩
      simp [extendedKappa, hl, mapOption_eq_none_of_mem hj hjnone]
    · intro ks hks
      simp [extendedKappa, hl, hks]

/-- Claim C5 witness: on the chain, the canonical joinand of `a` is `a`
itself, its kappa is `0`, and the extended kappa of `a` is the meet. -/
theorem c5_witness :
    extendedKappa (Fin 4) chainElems 1 = some (meetList (Fin 4) [0]) :=
  ((c5_extended_kappa_flow (Fin 4) chainElems 1).2 [1] (by decide)).2 [0] (by decide)

/-- Claim C8: `numberOfProjs` treats an element argument `T` as the
interval `(bottom, T)` and an interval argument `(U, T)` as given, and
returns the number of projectives of `T` not below `U`; for the top
element it equals the total number of projectives of the top. -/
theorem c8_number_of_projs :
    (∀ T : α, numberOfProjs α elems (.inl T)
       = ((projectives α elems T).filter (fun M => decide (¬ M ≤ zero α))).length)
    ∧ (∀ U T : α, numberOfProjs α elems (.inr (U, T))
       = ((projectives α elems T).filter (fun M => decide (¬ M ≤ U))).length)
    ∧ numberOfProjs α elems (.inl (whole α))
       = (projectives α elems (whole α)).length := by
  refine ⟨fun T => rfl, fun U T => rfl, ?_⟩
  show ((projectives α elems (whole α)).filter
      (fun M => decide (¬ M ≤ zero α))).length = _
  congr 1
  apply List.filter_eq_self.mpr
  intro M hM
  have hMb : M ∈ allBricks α elems := (List.mem_filter.mp hM).1
  simp only [decide_eq_true_eq]
  intro hle
  exact bot_not_brick α elems (le_bot_iff.mp hle ▸ hMb)

/-- Claim C9: `simples` is exactly the set of upper covers of the bottom
element, and every such cover is join-irreducible, hence a brick. -/
theorem c9_simples_sub_bricks (henum : ∀ a : α, a ∈ elems) (hnd : elems.Nodup) :
    simples α elems = upperCovers α elems (⊥ : α)
    ∧ ∀ x ∈ simples α elems, x ∈ allBricks α elems := by
  refine ⟨rfl, ?_⟩
  intro x hx
  have hx0 : x ∈ upperCovers α elems (⊥ : α) := hx
  have hx2 := (mem_upperCovers α elems).mp hx0
  have hcov : lowerCovers α elems x = [⊥] := by
    apply filter_eq_singleton hnd (henum ⊥)
    · simp only [decide_eq_true_eq]
      exact ⟨bot_le, hx2.2.2.1, hx2.2.2.2⟩
    · intro w hw hpw
      obtain ⟨h1, h2, -⟩ := of_decide_eq_true hpw
      rcases hx2.2.2.2 w hw bot_le h1 with he | he
      · exact he
      · exact absurd he h2
  exact List.mem_filter.mpr ⟨hx2.1, by simp [hcov]⟩

/-- Claim C9 witness: on the chain, the simple `a` is a brick. -/
theorem c9_witness : (1 : Fin 4) ∈ allBricks (Fin 4) chainElems :=
  (c9_simples_sub_bricks (Fin 4) chainElems (by decide) (by decide)).2 1 (by decide)

/-- Claim C10: `label` with its own check disabled still raises
`NotAnInterval` on a non-interval pair, since it calls `bricks` with the
default (enabled) check. -/
theorem c10_label_nocheck_not_interval (U T : α) (h : ¬ U ≤ T) :
    label α elems U T false = .error .notAnInterval := by
  simp [label, bricks, h]

/-- Claim C10 witness: on the chain, `(a, 0)` is not an interval and
`label` with check disabled still raises `NotAnInterval`. -/
theorem c10_witness : label (Fin 4) chainElems 1 0 false = .error .notAnInterval :=
  c10_label_nocheck_not_interval (Fin 4) chainElems 1 0 (by decide)

/-- The torsion-free brick comprehension succeeds on a finite
semidistributive lattice, because every kappa value exists. -/
lemma bricksInTorf_ok (henum : ∀ a : α, a ∈ elems) (hnd : elems.Nodup)
    (hsdm : SDmeet α) (hsdj : SDjoin α) (T : α) :
    bricksInTorf α elems T = .ok (torfSet α elems T) := by
  have hall : (allBricks α elems).all (fun j => (kappa α elems j).isSome) = true := by
    rw [List.all_eq_true]
    intro j hj
    obtain ⟨k, hk⟩ := extendedKappa_total α elems henum hnd hsdm hsdj j
    simp [kappa, hk]
  simp [bricksInTorf, hall]

/-- Claim C6: with the check enabled, `bricks` raises `NotAnInterval`
exactly when `U ≤ T` fails, and on a genuine interval returns the
intersection of `bricks_in_tors(T)` with `bricks_in_torf(U)`. -/
theorem c6_bricks_interval_check (henum : ∀ a : α, a ∈ elems) (hnd : elems.Nodup)
    (hsdm : SDmeet α) (hsdj : SDjoin α) (U T : α) :
    (bricks α elems U T true = .error .notAnInterval ↔ ¬ U ≤ T)
    ∧ (U ≤ T → bricks α elems U T true
        = .ok ((bricksInTors α elems T).filter (fun j => decide (j ∈ torfSet α elems U)))) := by
  have htorf := bricksInTorf_ok α elems henum hnd hsdm hsdj U
  by_cases hUT : U ≤ T
  · exact ⟨by simp [bricks, hUT, htorf], fun _ => by simp [bricks, hUT, htorf]⟩
  · exact ⟨by simp [bricks, hUT], fun h => absurd h hUT⟩

/-- Claim C6 witness: on the chain, `(a, 0)` is not an interval. -/
theorem c6_witness : bricks (Fin 4) chainElems 1 0 true = .error .notAnInterval :=
  (c6_bricks_interval_check (Fin 4) chainElems (by decide) (by decide) (by decide) (by decide)
    1 0).1.mpr (by decide)

/-- Python `wide_lequal` is `True` exactly when `U ≤ T` and the kappa of `U`
lies above the kappa of `T`, kappa values being present. -/
lemma wideLequal_ok_true_iff {U T kU kT : α}
    (hU : kappa α elems U = some kU) (hT : kappa α elems T = some kT) :
    wideLequal α elems U T = .ok true ↔ (U ≤ T ∧ kT ≤ kU) := by
  by_cases hUT : U ≤ T
  · simp [wideLequal, hUT, hU, hT]
  · simp [wideLequal, hUT]

/-- Claim C7: `wideLequal(U, T)` returns `True` exactly when `U ≤ T` and
`kappa(U) ≥ kappa(T)`; on a finite semidistributive lattice the kappa
values always exist and the relation is reflexive, antisymmetric and
transitive, hence a partial order on the element set. -/
theorem c7_wide_lequal_partial_order (henum : ∀ a : α, a ∈ elems) (hnd : elems.Nodup)
    (hsdm : SDmeet α) (hsdj : SDjoin α) :
    (∀ x : α, (kappa α elems x).isSome)
    ∧ (∀ U T kU kT : α, kappa α elems U = some kU → kappa α elems T = some kT →
        (wideLequal α elems U T = .ok true ↔ (U ≤ T ∧ kT ≤ kU)))
    ∧ (∀ U : α, wideLequal α elems U U = .ok true)
    ∧ (∀ U T : α, wideLequal α elems U T = .ok true → wideLequal α elems T U = .ok true → U = T)
    ∧ (∀ U T V : α, wideLequal α elems U T = .ok true → wideLequal α elems T V = .ok true →
        wideLequal α elems U V = .ok true) := by
  have htot : ∀ x : α, ∃ k, kappa α elems x = some k := fun x =>
    extendedKappa_total α elems henum hnd hsdm hsdj x
  refine ⟨?_, ?_, ?_, ?_, ?_⟩
  · intro x
    obtain ⟨k, hk⟩ := htot x
    simp [hk]
  · intro U T kU kT hU hT
    exact wideLequal_ok_true_iff α elems hU hT
  · intro U
    obtain ⟨k, hk⟩ := htot U
    exact (wideLequal_ok_true_iff α elems hk hk).mpr ⟨le_refl U, le_refl k⟩
  · intro U T h1 h2
    obtain ⟨kU, hkU⟩ := htot U
    obtain ⟨kT, hkT⟩ := htot T
    have ha := (wideLequal_ok_true_iff α elems hkU hkT).mp h1
    have hb := (wideLequal_ok_true_iff α elems hkT hkU).mp h2
    exact le_antisymm ha.1 hb.1
  · intro U T V h1 h2
    obtain ⟨kU, hkU⟩ := htot U
    obtain ⟨kT, hkT⟩ := htot T
    obtain ⟨kV, hkV⟩ := htot V
    have ha := (wideLequal_ok_true_iff α elems hkU hkT).mp h1
    have hb := (wideLequal_ok_true_iff α elems hkT hkV).mp h2
    exact (wideLequal_ok_true_iff α elems hkU hkV).mpr
      ⟨le_trans ha.1 hb.1, le_trans hb.2 ha.2⟩

/-- Claim C7 witness: on the chain, `wideLequal(b, b)` is `True`. -/
theorem c7_witness : wideLequal (Fin 4) chainElems 2 2 = .ok true :=
  (c7_wide_lequal_partial_order (Fin 4) chainElems (by decide) (by decide) (by decide)
    (by decide)).2.2.1 2

/-- Claim C4: on a finite semidistributive lattice, every wide interval
is both an ICE interval and an IKE interval. -/
theorem c4_wide_implies_ice_ike (henum : ∀ a : α, a ∈ elems)
    (hsdm : SDmeet α) (hsdj : SDjoin α) (U T : α) (hUT : U ≤ T)
    (hw : isWideItv α elems U T true = .ok true) :
    isIceItv α elems U T true = .ok true ∧ isIkeItv α elems U T true = .ok true := by
  have hice_of : T ≤ plus α elems U → isIceItv α elems U T true = .ok true := by
    intro h
    simp [isIceItv, hUT, h]
  have hike_of : minus α elems T ≤ U → isIkeItv α elems U T true = .ok true := by
    intro h
    simp [isIkeItv, hUT, h]
  by_cases hUeq : U = T
  · subst hUeq
    constructor
    · apply hice_of
      by_cases htop : U = whole α
      · simp only [plus]
        rw [if_pos htop]
      · have hUlt : U < ⊤ := lt_of_le_of_ne le_top (by simpa [whole] using htop)
        obtain ⟨x, hx, -⟩ := exists_upperCover_le α elems henum hUlt
        simp only [plus]
        rw [if_neg htop]
        exact le_trans (upperCover_lt α elems hx).le (le_joinList α hx)
    · apply hike_of
      by_cases hbot : U = zero α
      · simp only [minus]
        rw [if_pos hbot]
      · have hUgt : (⊥ : α) < U := lt_of_le_of_ne bot_le
          (fun he => hbot (by simp [zero, ← he]))
        obtain ⟨y, hy, -⟩ := exists_lowerCover_ge α elems henum hUgt
        simp only [minus]
        rw [if_neg hbot]
        exact le_trans (meetList_le α hy) (lowerCover_lt α elems hy).le
  · have hULT : U < T := lt_of_le_of_ne hUT hUeq
    simp only [isWideItv, hUT, hUeq] at hw
    have hT : T = joinList α ((upperCovers α elems U).filter (fun x => decide (x ≤ T))) := by
      simpa using hw
    set C := (upperCovers α elems U).filter (fun x => decide (x ≤ T)) with hC
    have hCmem : ∀ x ∈ C, x ∈ upperCovers α elems U ∧ x ≤ T := by
      intro x hx
      have h1 := List.mem_filter.mp hx
      exact ⟨h1.1, by simpa using h1.2⟩
    have hUtop : U ≠ whole α := by
      intro he
      rw [he] at hULT
      simp only [whole] at hULT
      exact not_top_lt hULT
    have hice : T ≤ plus α elems U := by
      simp only [plus]
      rw [if_neg hUtop, hT]
      exact joinList_le α (fun a ha => le_joinList α ((List.mem_filter.mp ha).1))
    have hTbot : T ≠ zero α := by
      intro he
      rw [he] at hULT
      simp only [zero] at hULT
      exact not_lt_bot hULT
    set D := (lowerCovers α elems T).filter (fun y => decide (U ≤ y)) with hD
    have hDmem : ∀ y ∈ D, y ∈ lowerCovers α elems T ∧ U ≤ y := by
      intro y hy
      have h1 := List.mem_filter.mp hy
      exact ⟨h1.1, by simpa using h1.2⟩
    obtain ⟨y0, hy0, hUy0⟩ := exists_lowerCover_ge α elems henum hULT
    have hy0D : y0 ∈ D := List.mem_filter.mpr ⟨hy0, by simpa using hUy0⟩
    have hmain : meetList α (lowerCovers α elems T) ≤ U := by
      have hmw : meetList α (lowerCovers α elems T) ≤ meetList α D :=
        le_meetList α (fun y hy => meetList_le α (hDmem y hy).1)
      suffices hwU : meetList α D ≤ U by exact le_trans hmw hwU
      by_contra hnle
      have hUw : U ≤ meetList α D := le_meetList α (fun y hy => (hDmem y hy).2)
      have hUltw : U < meetList α D := lt_of_le_of_ne hUw (fun he => hnle (he ▸ le_refl U))
      obtain ⟨x0, hx0c, hx0w⟩ := exists_upperCover_le α elems henum hUltw
      have hx0y : ∀ y ∈ D, x0 ≤ y := fun y hy => le_trans hx0w (meetList_le α hy)
      have hnotall : ∀ y ∈ D, ∃ x1 ∈ C, ¬ x1 ≤ y := by
        intro y hy
        by_contra hall
        push_neg at hall
        have hTy : T ≤ y := by
          rw [hT]
          exact joinList_le α hall
        exact absurd hTy (lowerCover_lt α elems (hDmem y hy).1).not_le
      obtain ⟨x1, hx1C, hx1y0⟩ := hnotall y0 hy0D
      have hx1ne : x1 ≠ x0 := fun he => hx1y0 (he ▸ hx0y y0 hy0D)
      set Cp := C.filter (fun x => decide (x ≠ x0)) with hCp
      have hx1Cp : x1 ∈ Cp := List.mem_filter.mpr ⟨hx1C, by simpa using hx1ne⟩
      have hCpC : ∀ x ∈ Cp, x ∈ upperCovers α elems U ∧ x ≤ T ∧ x ≠ x0 := by
        intro x hx
        have h1 := List.mem_filter.mp hx
        have h2 := hCmem x h1.1
        exact ⟨h2.1, h2.2, by simpa using h1.2⟩
      have hinf : ∀ x ∈ Cp, x0 ⊓ x = U := by
        intro x hx
        have h3 := hCpC x hx
        exact upperCovers_inf α elems henum hx0c h3.1 (Ne.symm h3.2.2)
      have hv : x0 ⊓ joinList α Cp = U :=
        sdmeet_joinList α hsdm (List.ne_nil_of_mem hx1Cp) hinf
      have hvT : joinList α Cp ≤ T := joinList_le α (fun x hx => (hCpC x hx).2.1)
      have hUv : U ≤ joinList α Cp :=
        le_trans (upperCover_lt α elems (hCmem x1 hx1C).1).le (le_joinList α hx1Cp)
      have hvTne : joinList α Cp ≠ T := by
        intro he
        have hx0T : x0 ≤ T := le_trans (hx0y y0 hy0D) (lowerCover_lt α elems hy0).le
        have hx0U : x0 ⊓ T = U := he ▸ hv
        rw [inf_eq_left.mpr hx0T] at hx0U
        exact (upperCover_lt α elems hx0c).ne' hx0U
      obtain ⟨yst, hyst, hvyst⟩ :=
        exists_lowerCover_ge α elems henum (lt_of_le_of_ne hvT hvTne)
      have hystD : yst ∈ D := List.mem_filter.mpr ⟨hyst, by simpa using le_trans hUv hvyst⟩
      obtain ⟨x2, hx2C, hx2yst⟩ := hnotall yst hystD
      have hx2ne : x2 ≠ x0 := fun he => hx2yst (he ▸ hx0y yst hystD)
      have hx2Cp : x2 ∈ Cp := List.mem_filter.mpr ⟨hx2C, by simpa using hx2ne⟩
      exact hx2yst (le_trans (le_joinList α hx2Cp) hvyst)
    have hike : minus α elems T ≤ U := by
      simp only [minus]
      rw [if_neg hTbot]
      exact hmain
    exact ⟨hice_of hice, hike_of hike⟩

/-- Claim C4 witness: on the chain, `(0, a)` is wide, ICE and IKE. -/
theorem c4_witness :
    isIceItv (Fin 4) chainElems 0 1 true = .ok true
    ∧ isIkeItv (Fin 4) chainElems 0 1 true = .ok true :=
  c4_wide_implies_ice_ike (Fin 4) chainElems (by decide) (by decide) (by decide) 0 1
    (by decide) (by decide)

end TorsLat
